import Mathlib

set_option maxHeartbeats 1000000

/-!
Verification development for the batch media downloader (src/main.py).

Shallow embedding conventions:
* Python strings are `List Char`.
* The filesystem is explicit data: a list of regular files (path/content
  pairs) and a list of existing directories.
* Child-process invocations (ffmpeg, yt-dlp) are oracles supplied as values:
  an exit code together with the observable side effects of the run.
* `sys.exit` and uncaught exceptions are modelled with `Except` or with
  dedicated result constructors.

The file is organised as definitions first, then theorems.
-/

/-- Whitespace characters removed by Python `str.strip()` (ASCII range). -/
def pyIsSpace (c : Char) : Bool :=
  c = ' ' || c = '\t' || c = '\n' || c = '\r' || c = '\x0b' || c = '\x0c'

/-- Python `str.strip()`: drop leading and trailing whitespace. -/
def stripWS (l : List Char) : List Char :=
  ((l.dropWhile pyIsSpace).reverse.dropWhile pyIsSpace).reverse

/-- Python `str.lower()` (ASCII range). -/
def toLowerL (s : List Char) : List Char := s.map Char.toLower

/-- Result of trying to run a child process with `subprocess.run`. -/
inductive ProcResult where
  | exited (code : Int)
  | execMissing
deriving DecidableEq

/-- Model of `check_ffmpeg` (src/main.py lines 28-45).

`subprocess.run(["ffmpeg", "-version"], ..., check=True, ...)` raises
`CalledProcessError` on a non-zero exit, and that exception is caught and
turned into `False`; a zero exit returns `True`.  If the `ffmpeg`
executable cannot be located, `subprocess.run` raises `FileNotFoundError`,
which the `except subprocess.CalledProcessError` clause does not catch, so
the exception propagates to the caller (`Except.error ()` here). -/
def check_ffmpeg : ProcResult → Except Unit Bool
  | .exited c => if c = 0 then .ok true else .ok false
  | .execMissing => .error ()

/-- How far the program gets before prompting the user for input. -/
inductive PreflightResult where
  | raisedBeforePrompt
  | exitBeforePrompt (code : Nat)
  | prompted
deriving DecidableEq

/-- Model of the startup preflight in `__main__` (src/main.py lines 225-237).

The script calls `check_ffmpeg()` and exits with code 1 when it returns
`False`; otherwise it proceeds to print the prompts and read input.  The
availability of the downloader (`yt-dlp`) is never consulted before
prompting, which is why the `_ytdlpPresent` argument is unused. -/
def mainPreflight (ffmpegProbe : ProcResult) (_ytdlpPresent : Bool) : PreflightResult :=
  match check_ffmpeg ffmpegProbe with
  | .error _ => .raisedBeforePrompt
  | .ok false => .exitBeforePrompt 1
  | .ok true => .prompted

/-- Outcome of `process_input` (src/main.py lines 198-222): a list of URLs,
a classified fatal error (message printed then `sys.exit(1)`), or an
unhandled exception escaping to the top level. -/
inductive InputResult where
  | ok (urls : List (List Char))
  | exit1
  | raised
deriving DecidableEq

/-- Python file iteration: split a file's content into lines, each line
keeping its trailing newline; a final chunk without a newline is a line of
its own; the empty file yields no lines. -/
def splitLinesKeep : List Char → List (List Char)
  | [] => []
  | c :: rest =>
    if c = '\n' then ['\n'] :: splitLinesKeep rest
    else
      match splitLinesKeep rest with
      | [] => [[c]]
      | l :: ls => (c :: l) :: ls

/-- Model of `process_input` (src/main.py lines 198-222).  `fsRead` is the
filesystem oracle used by `open`: the content of the file at a path, or
`none` when no file exists there (in which case `open` raises
`FileNotFoundError`, unhandled anywhere in the program). -/
def process_input (input : List Char) (fsRead : List Char → Option (List Char)) :
    InputResult :=
  if ("http".data).isPrefixOf input then .ok [input]
  else if (".txt".data).isSuffixOf (toLowerL input) then
    match fsRead input with
    | none => .raised
    | some content =>
      let urls := ((splitLinesKeep content).map stripWS).filter (fun l => !l.isEmpty)
      if urls.isEmpty then .exit1 else .ok urls
  else .exit1

/-- POSIX `os.path.join(a, b)` for a single extra component: an absolute
`b` replaces `a`; otherwise a separator is inserted unless `a` is empty or
already ends in one. -/
def joinPath (a b : List Char) : List Char :=
  if b.head? = some '/' then b
  else if a = [] ∨ a.getLast? = some '/' then a ++ b
  else a ++ '/' :: b

/-- POSIX `os.path.dirname`-style parent: everything before the last
separator (empty when there is none). -/
def parentDir (p : List Char) : List Char :=
  ((p.reverse.dropWhile (fun c => c ≠ '/')).drop 1).reverse

/-- Insert a path into the directory list if it is not there yet. -/
def dirInsert (p : List Char) (ds : List (List Char)) : List (List Char) :=
  if p ∈ ds then ds else p :: ds

/-- Recursion of `os.makedirs`: ensure each ancestor exists, innermost
last.  Fuel-indexed; the parent of a non-empty path is strictly shorter,
so `p.length + 1` units of fuel always suffice. -/
def mkdirsChain : Nat → List (List Char) → List Char → List (List Char)
  | 0, ds, _ => ds
  | n + 1, ds, p =>
    if p = [] then ds
    else dirInsert p (mkdirsChain n ds (parentDir p))

/-- `os.makedirs(p, exist_ok=True)` on the directory-set model: the target
directory and all missing ancestors are created. -/
def mkdirs (ds : List (List Char)) (p : List Char) : List (List Char) :=
  mkdirsChain (p.length + 1) ds p

/-- Model of `create_output_directory` (src/main.py lines 48-62).

`os.makedirs(..., exist_ok=True)` never errors when the directory already
exists (`FileExistsError` is suppressed); when actual creation is
attempted, an environmental `OSError` (the `osErr` oracle) makes the
function print an error and call `sys.exit(1)` (`Except.error 1`). -/
def create_output_directory (ds : List (List Char)) (dir : List Char)
    (osErr : Bool) : Except Nat (List (List Char)) :=
  if dir ∈ ds then .ok ds
  else if osErr then .error 1
  else .ok (mkdirs ds dir)

/-- The per-URL output directory computed by `download_youtube_media`
(src/main.py line 133): `os.path.join(base, "Audio" or "Video")`. -/
def outDirOf (base : List Char) (audioOnly : Bool) : List Char :=
  joinPath base (if audioOnly then "Audio".data else "Video".data)

/-- The directory-resolution step of `download_youtube_media` (src/main.py
lines 132-136): compute the kind subdirectory and create it if missing,
returning the updated directory set together with the resolved path. -/
def ensureOutputDir (ds : List (List Char)) (base : List Char)
    (audioOnly : Bool) (osErr : Bool) :
    Except Nat (List (List Char) × List Char) :=
  match create_output_directory ds (outDirOf base audioOnly) osErr with
  | .error c => .error c
  | .ok ds' => .ok (ds', outDirOf base audioOnly)

/-- File store: association list from path to an opaque content token. -/
abbrev FileFS := List (List Char × Nat)

/-- Content of the file at a path, `none` when absent. -/
def getFile : FileFS → List Char → Option Nat
  | [], _ => none
  | e :: fs, p => if e.1 = p then some e.2 else getFile fs p

/-- Remove the file at a path (no-op when absent). -/
def removeFile : FileFS → List Char → FileFS
  | [], _ => []
  | e :: fs, p => if e.1 = p then removeFile fs p else e :: removeFile fs p

/-- Write content at a path, overwriting any previous file there. -/
def setFile (fs : FileFS) (p : List Char) (v : Nat) : FileFS :=
  (p, v) :: removeFile fs p

/-- Basename: the part of a POSIX path after the last separator. -/
def basenameL (p : List Char) : List Char :=
  (p.reverse.takeWhile (fun c => c ≠ '/')).reverse

/-- Extension of a file name (which contains no separator), following
CPython `posixpath.splitext`: the part from the last dot on, except that a
name whose characters before the last dot are all dots (".bashrc", "..")
has no extension. -/
def extOfName (name : List Char) : List Char :=
  let revAfter := name.reverse.takeWhile (fun c => c ≠ '.')
  if revAfter.length = name.length then []
  else if (name.take (name.length - revAfter.length - 1)).any (fun c => c ≠ '.') then
    '.' :: revAfter.reverse
  else []

/-- `os.path.splitext(p)[1]` for POSIX paths. -/
def splitextExt (p : List Char) : List Char := extOfName (basenameL p)

/-- The temporary path computed by `strip_metadata` (src/main.py line 77):
`file_path + "_stripped" + os.path.splitext(file_path)[1]`. -/
def strippedPathOf (p : List Char) : List Char :=
  p ++ "_stripped".data ++ splitextExt p

/-- The directory part of a path: everything up to and including the last
separator (the complement of `basenameL`). -/
def dirPartL (p : List Char) : List Char :=
  p.take (p.length - (basenameL p).length)

/-- Observable behaviour of one ffmpeg invocation inside `strip_metadata`:
its exit code, the content it wrote to the temporary output path if any
(ffmpeg may produce output even when it exits non-zero), and whether the
ffmpeg executable itself was missing, in which case `subprocess.run`
raises `FileNotFoundError`. -/
structure FfmpegRun where
  returncode : Int
  produced : Option Nat
  binMissing : Bool
deriving DecidableEq

/-- The file store right after the ffmpeg invocation in `strip_metadata`:
whatever ffmpeg wrote to the temporary path `sp` (with `-y`, overwriting)
has been applied. -/
def applyProduced (fs : FileFS) (sp : List Char) : Option Nat → FileFS
  | some v => setFile fs sp v
  | none => fs

/-- What `strip_metadata` logs on its way out. -/
inductive StripOutcome where
  | stripped
  | warnedReplaced
  | warnedKept
  | errorLogged
deriving DecidableEq

/-- Model of `strip_metadata` (src/main.py lines 65-117).

The ffmpeg command writes (with `-y`, overwriting) to the sibling
temporary path.  On exit code zero the original is replaced by the
temporary file via `os.replace` (if the temporary file is somehow absent,
`os.replace` raises `FileNotFoundError`, caught by the function's own
handler, which logs an error).  On a non-zero exit a warning is logged
and, if the temporary file exists, the same replacement is performed
anyway; otherwise nothing further happens.  A missing ffmpeg executable
raises `FileNotFoundError` out of `subprocess.run`, also caught and
logged.  No case raises to the caller. -/
def strip_metadata (fs : FileFS) (p : List Char) (run : FfmpegRun) :
    FileFS × StripOutcome :=
  if run.binMissing then (fs, .errorLogged)
  else
    let sp := strippedPathOf p
    let fs1 := applyProduced fs sp run.produced
    if run.returncode = 0 then
      match getFile fs1 sp with
      | some v => (setFile (removeFile fs1 sp) p v, .stripped)
      | none => (fs1, .errorLogged)
    else
      match getFile fs1 sp with
      | some v => (setFile (removeFile fs1 sp) p v, .warnedReplaced)
      | none => (fs1, .warnedKept)

/-- The fixed text preceding the artifact path in yt-dlp's
destination-announcement output line (src/main.py line 177). -/
def destMarker : List Char := "[download] Destination: ".data

/-- The path captured when the destination pattern matches at the head of
`s`: everything after the marker up to the end of the line (the regex
group `(.+)`, where `.` does not match a newline and `+` is greedy). -/
def lineCapture (s : List Char) : List Char :=
  (s.drop destMarker.length).takeWhile (fun c => c ≠ '\n')

/-- Does the destination pattern match at the head of `s`?  The marker
must be present and be followed by at least one non-newline character. -/
def matchHere (s : List Char) : Bool :=
  destMarker.isPrefixOf s && !(lineCapture s).isEmpty

/-- `re.search(r"\[download\] Destination: (.+)", stdout)`: scan positions
left to right and capture at the first position where the pattern
matches. -/
def searchDest : List Char → Option (List Char)
  | [] => none
  | c :: rest =>
    if matchHere (c :: rest) then some (lineCapture (c :: rest))
    else searchDest rest

/-- Declarative counterpart of `matchHere` at position `i` of `s`: some
decomposition places the marker at `i` with a non-empty non-newline
capture after it. -/
def matchesAt (s : List Char) (i : Nat) : Prop :=
  ∃ t, s.drop i = destMarker ++ t ∧ t.takeWhile (fun c => c ≠ '\n') ≠ []

/-- The capture the regex yields for a match at position `i` of `s`. -/
def captureAt (s : List Char) (i : Nat) : List Char :=
  ((s.drop i).drop destMarker.length).takeWhile (fun c => c ≠ '\n')

/-- Environment for one iteration of the batch loop: the per-URL oracles
for directory creation, the yt-dlp run (exit code and captured standard
output), and the ffmpeg run used if metadata stripping is reached. -/
structure UrlEnv where
  mkdirErr : Bool
  dlExit : Int
  dlStdout : List Char
  ffmpeg : FfmpegRun
deriving DecidableEq

/-- Filesystem state threaded through the batch: existing directories and
regular files. -/
structure BatchState where
  dirs : List (List Char)
  files : FileFS
deriving DecidableEq

/-- Per-URL outcome reported to the user by `download_youtube_media`. -/
inductive UrlOutcome where
  | completed (path : List Char)
  | destNotFound
  | fetchFailed
deriving DecidableEq

/-- Model of `download_youtube_media` (src/main.py lines 119-196).

The kind subdirectory is created first (an `OSError` there becomes
`sys.exit(1)`, a `SystemExit` that the `except subprocess.CalledProcessError`
clause does not catch, so it aborts the whole run: `Except.error 1`).
Then yt-dlp runs with `check=True`: a non-zero exit raises
`CalledProcessError`, which is caught, logged and reported
(`UrlOutcome.fetchFailed`), returning normally.  On a zero exit the
captured standard output is scanned for the destination line: the first
match's captured path is handed to `strip_metadata`
(`UrlOutcome.completed`); with no match a warning is printed and logged
and the function returns without stripping (`UrlOutcome.destNotFound`). -/
def download_youtube_media (st : BatchState) (base : List Char)
    (audioOnly : Bool) (env : UrlEnv) : Except Nat (BatchState × UrlOutcome) :=
  match create_output_directory st.dirs (outDirOf base audioOnly) env.mkdirErr with
  | .error c => .error c
  | .ok dirs1 =>
    if env.dlExit = 0 then
      match searchDest env.dlStdout with
      | some p => .ok (⟨dirs1, (strip_metadata st.files p env.ffmpeg).1⟩, .completed p)
      | none => .ok (⟨dirs1, st.files⟩, .destNotFound)
    else .ok (⟨dirs1, st.files⟩, .fetchFailed)

/-- The per-URL outcome as a function of that URL's oracles alone (used to
state failure isolation across the batch). -/
def urlOutcomeOf (env : UrlEnv) : UrlOutcome :=
  if env.dlExit = 0 then
    match searchDest env.dlStdout with
    | some p => .completed p
    | none => .destNotFound
  else .fetchFailed

/-- Model of the batch loop in `__main__` (src/main.py lines 258-259): the
URLs are processed strictly in order; an uncaught `SystemExit` from
directory creation aborts the run with its exit code; otherwise the script
falls off the end of the loop and the process exits with status 0. -/
def runBatch (st : BatchState) (base : List Char) (audioOnly : Bool) :
    List UrlEnv → BatchState × List UrlOutcome × Nat
  | [] => (st, [], 0)
  | e :: es =>
    match download_youtube_media st base audioOnly e with
    | .error c => (st, [], c)
    | .ok (st1, out) =>
      let r := runBatch st1 base audioOnly es
      (r.1, out :: r.2.1, r.2.2)

/-- Splitting on newline in the conventional sense (separators dropped;
the empty content yields one empty line, a trailing newline yields a final
empty line). -/
def linesOf : List Char → List (List Char)
  | [] => [[]]
  | c :: rest =>
    if c = '\n' then [] :: linesOf rest
    else (c :: (linesOf rest).headD []) :: (linesOf rest).tail

/-- Remove one trailing newline from a line kept by `splitLinesKeep`. -/
def stripNL (l : List Char) : List Char :=
  if l.getLast? = some '\n' then l.dropLast else l

/-- The extra empty line that conventional splitting produces when the
content is empty or ends with a newline. -/
def endPad (c : List Char) : List (List Char) :=
  if c = [] ∨ c.getLast? = some '\n' then [[]] else []

/-- The non-blank lines of a file, in order, each with surrounding
whitespace removed: the claim-side description of list-file parsing. -/
def nonblankLines (content : List Char) : List (List Char) :=
  ((linesOf content).map stripWS).filter (fun l => !l.isEmpty)

/-!  Theorems.  -/

theorem dirInsert_self_mem (p : List Char) (ds : List (List Char)) :
    p ∈ dirInsert p ds := by
  unfold dirInsert
  by_cases h : p ∈ ds
  · simp [h]
  · simp [h]

theorem mem_mkdirs_self (ds : List (List Char)) (p : List Char) (hp : p ≠ []) :
    p ∈ mkdirs ds p := by
  unfold mkdirs mkdirsChain
  simp only [hp, if_false]
  exact dirInsert_self_mem _ _

/-- The "Audio"/"Video" subdirectory path is never the empty path. -/
theorem outDirOf_ne_nil (base : List Char) (audioOnly : Bool) :
    outDirOf base audioOnly ≠ [] := by
  unfold outDirOf joinPath
  cases audioOnly <;> simp <;> split <;> simp

/-- Claim C8: `ensureOutputDir` is idempotent.  After a successful first
call, a second call with the same base path and media kind succeeds (even
if the environment would now fail a real creation attempt: none is made,
because the directory already exists), changes nothing, and returns the
same resolved directory path. -/
theorem C8_ensureOutputDir_idempotent (ds : List (List Char))
    (base : List Char) (audioOnly : Bool) (e1 e2 : Bool)
    (ds1 : List (List Char)) (p1 : List Char)
    (h : ensureOutputDir ds base audioOnly e1 = .ok (ds1, p1)) :
    ensureOutputDir ds1 base audioOnly e2 = .ok (ds1, p1) := by
  unfold ensureOutputDir create_output_directory at h ⊢
  by_cases hmem : outDirOf base audioOnly ∈ ds
  · simp only [hmem, if_true] at h
    cases h
    simp [hmem]
  · simp only [hmem, if_false] at h
    cases e1 with
    | true => simp at h
    | false =>
      simp only [Bool.false_eq_true, if_false] at h
      cases h
      have hm : outDirOf base audioOnly ∈ mkdirs ds (outDirOf base audioOnly) :=
        mem_mkdirs_self ds _ (outDirOf_ne_nil base audioOnly)
      simp [hm]

/-- Claim C8, witness: a second call after a successful first call on an
initially empty directory set. -/
theorem C8_ensureOutputDir_idempotent_witness :
    ensureOutputDir ["/b/Audio".data, "/b".data] ("/b".data) true true =
      .ok (["/b/Audio".data, "/b".data], "/b/Audio".data) :=
  C8_ensureOutputDir_idempotent [] ("/b".data) true false true
    ["/b/Audio".data, "/b".data] ("/b/Audio".data) (by rfl)

/-- Claim C4: `check_ffmpeg` is claimed to return `false` when the tool
executable cannot be located and never to raise.  The code contradicts its
own docstring ("True if FFmpeg is installed, False otherwise"): when the
executable is missing, `subprocess.run` raises `FileNotFoundError`, which
the handler (which only catches `CalledProcessError`) lets propagate.  This
theorem evaluates the model at the failing input and at the two exit-code
inputs on which the claim does hold. -/
theorem C4_check_ffmpeg_missing_tool_raises :
    check_ffmpeg ProcResult.execMissing = Except.error () ∧
    check_ffmpeg (ProcResult.exited 0) = Except.ok true ∧
    check_ffmpeg (ProcResult.exited 3) = Except.ok false :=
  ⟨rfl, rfl, rfl⟩

/-- Claim C5, counterexample: with the media processor available (version
query exits 0) but the downloader absent, the program still proceeds to
prompt for input, contradicting the claim that it checks both external
tools and terminates without prompting when either is absent. -/
theorem C5_preflight_counterexample :
    mainPreflight (ProcResult.exited 0) false = PreflightResult.prompted :=
  rfl

/-- Claim C5, amended: before any input is requested the program checks
only the media processor (ffmpeg); the downloader is never preflight
checked.  If the ffmpeg version query exits non-zero the program exits
with code 1 without prompting; if the ffmpeg executable is absent the
check itself raises before any prompt; otherwise it prompts, regardless of
downloader availability. -/
theorem C5_preflight_amended (c : Int) (y : Bool) :
    (c ≠ 0 → mainPreflight (ProcResult.exited c) y = PreflightResult.exitBeforePrompt 1) ∧
    mainPreflight (ProcResult.exited 0) y = PreflightResult.prompted ∧
    mainPreflight ProcResult.execMissing y = PreflightResult.raisedBeforePrompt := by
  refine ⟨fun hc => ?_, rfl, rfl⟩
  simp [mainPreflight, check_ffmpeg, hc]

/-- Claim C5, amended, witness at a concrete non-zero exit code. -/
theorem C5_preflight_amended_witness :
    mainPreflight (ProcResult.exited 2) true = PreflightResult.exitBeforePrompt 1 :=
  (C5_preflight_amended 2 true).1 (by decide)

/-- Claim C7: for every input string beginning with "http", `process_input`
returns exactly the one-element list holding the input itself, and the
result does not depend on the filesystem oracle at all (no file access). -/
theorem C7_url_input (input : List Char)
    (fsRead fsRead' : List Char → Option (List Char))
    (h : ("http".data).isPrefixOf input = true) :
    process_input input fsRead = InputResult.ok [input] ∧
    process_input input fsRead = process_input input fsRead' := by
  unfold process_input
  rw [h]
  exact ⟨rfl, rfl⟩

/-- Claim C7, witness on a concrete URL. -/
theorem C7_url_input_witness :
    process_input ("https://example.com/watch?v=1".data) (fun _ => none) =
      InputResult.ok [("https://example.com/watch?v=1".data)] :=
  (C7_url_input _ (fun _ => none) (fun _ => some []) (by decide)).1

/-- Claim C10: an input that does not start with "http" but whose
lowercasing ends in ".txt" names a list file; when no file exists at that
path, `open` raises `FileNotFoundError` and no handler in the program
catches it, so the program aborts with a traceback (`InputResult.raised`)
instead of the classified `exit1` outcome used for the other input
errors. -/
theorem C10_missing_list_file_raises (input : List Char)
    (fsRead : List Char → Option (List Char))
    (h1 : ("http".data).isPrefixOf input = false)
    (h2 : (".txt".data).isSuffixOf (toLowerL input) = true)
    (h3 : fsRead input = none) :
    process_input input fsRead = InputResult.raised := by
  unfold process_input
  rw [h1, h2]
  simp [h3]

/-- Claim C10, witness: a concrete ".txt" path on an empty filesystem. -/
theorem C10_missing_list_file_raises_witness :
    process_input ("urls.txt".data) (fun _ => none) = InputResult.raised :=
  C10_missing_list_file_raises ("urls.txt".data) (fun _ => none)
    (by decide) (by decide) rfl

theorem destMarker_ne_nil : destMarker ≠ [] := by decide

theorem matchHere_iff_matchesAt_zero (s : List Char) :
    matchHere s = true ↔ matchesAt s 0 := by
  unfold matchHere matchesAt lineCapture
  rw [Bool.and_eq_true]
  constructor
  · rintro ⟨hp, hc⟩
    rcases List.isPrefixOf_iff_prefix.mp hp with ⟨t, ht⟩
    refine ⟨t, by rw [List.drop_zero, ← ht], ?_⟩
    rw [← ht, List.drop_left] at hc
    simpa using hc
  · rintro ⟨t, ht, hne⟩
    rw [List.drop_zero] at ht
    constructor
    · exact List.isPrefixOf_iff_prefix.mpr ⟨t, ht.symm⟩
    · rw [ht, List.drop_left]
      simpa using hne

theorem matchesAt_cons_succ (c : Char) (s : List Char) (i : Nat) :
    matchesAt (c :: s) (i + 1) ↔ matchesAt s i := Iff.rfl

theorem searchDest_eq_some_iff (s p : List Char) :
    searchDest s = some p ↔
      ∃ i, matchesAt s i ∧ (∀ j, j < i → ¬ matchesAt s j) ∧ p = captureAt s i := by
  induction s with
  | nil =>
    constructor
    · intro h; simp [searchDest] at h
    · rintro ⟨i, ⟨t, ht, -⟩, -, -⟩
      rw [List.drop_nil] at ht
      exact absurd ht.symm (by simp [destMarker_ne_nil])
  | cons c rest ih =>
    by_cases hm : matchHere (c :: rest) = true
    · rw [searchDest, if_pos hm]
      constructor
      · intro h
        exact ⟨0, (matchHere_iff_matchesAt_zero _).mp hm,
          fun j hj => absurd hj (Nat.not_lt_zero j),
          (Option.some.injEq _ _ ▸ h :
            lineCapture (c :: rest) = p).symm⟩
      · rintro ⟨i, h1, h2, h3⟩
        cases i with
        | zero => rw [h3]; rfl
        | succ j =>
          exact absurd ((matchHere_iff_matchesAt_zero _).mp hm)
            (h2 0 (Nat.succ_pos j))
    · rw [searchDest, if_neg hm, ih]
      constructor
      · rintro ⟨i, h1, h2, h3⟩
        refine ⟨i + 1, (matchesAt_cons_succ c rest i).mpr h1, ?_, h3⟩
        intro j hj
        cases j with
        | zero => exact fun h0 => hm ((matchHere_iff_matchesAt_zero _).mpr h0)
        | succ k =>
          exact (matchesAt_cons_succ c rest k).not.mpr
            (h2 k (Nat.lt_of_succ_lt_succ hj))
      · rintro ⟨i, h1, h2, h3⟩
        cases i with
        | zero =>
          exact absurd h1 (fun h0 => hm ((matchHere_iff_matchesAt_zero _).mpr h0))
        | succ k =>
          refine ⟨k, (matchesAt_cons_succ c rest k).mp h1, ?_, h3⟩
          intro j hj
          exact (matchesAt_cons_succ c rest j).not.mp
            (h2 (j + 1) (Nat.succ_lt_succ hj))

theorem searchDest_eq_none_iff (s : List Char) :
    searchDest s = none ↔ ∀ i, ¬ matchesAt s i := by
  induction s with
  | nil =>
    constructor
    · rintro - i ⟨t, ht, -⟩
      rw [List.drop_nil] at ht
      exact absurd ht.symm (by simp [destMarker_ne_nil])
    · intro _; rfl
  | cons c rest ih =>
    by_cases hm : matchHere (c :: rest) = true
    · rw [searchDest, if_pos hm]
      constructor
      · intro h; cases h
      · intro h
        exact absurd ((matchHere_iff_matchesAt_zero _).mp hm) (h 0)
    · rw [searchDest, if_neg hm, ih]
      constructor
      · intro h i
        cases i with
        | zero => exact fun h0 => hm ((matchHere_iff_matchesAt_zero _).mpr h0)
        | succ k => exact (matchesAt_cons_succ c rest k).not.mpr (h k)
      · intro h i
        exact (matchesAt_cons_succ c rest i).not.mp (h (i + 1))

theorem not_matchesAt_of_matchHere_false (s : List Char) (j : Nat)
    (h : matchHere (s.drop j) = false) : ¬ matchesAt s j := by
  intro hm
  have ht : matchHere (s.drop j) = true :=
    (matchHere_iff_matchesAt_zero (s.drop j)).mpr hm
  rw [h] at ht
  cases ht

/-- Claim C1: on a successful downloader run (exit 0), if the captured
standard output matches the destination pattern anywhere, then
`download_youtube_media` resolves the artifact path to the capture of the
first (leftmost) match and passes exactly that path to `strip_metadata`;
if the output contains no match, it reports the destination-not-found
condition and returns normally (no exception, `Except.ok`) without
invoking the stripper (the file store is untouched). -/
theorem C1_fetch_destination (st : BatchState) (base : List Char)
    (audioOnly : Bool) (env : UrlEnv) (dirs1 : List (List Char))
    (hcd : create_output_directory st.dirs (outDirOf base audioOnly) env.mkdirErr =
      .ok dirs1)
    (hdl : env.dlExit = 0) :
    (∀ p, (∃ i, matchesAt env.dlStdout i ∧ (∀ j, j < i → ¬ matchesAt env.dlStdout j) ∧
        p = captureAt env.dlStdout i) →
      download_youtube_media st base audioOnly env =
        .ok (⟨dirs1, (strip_metadata st.files p env.ffmpeg).1⟩, .completed p)) ∧
    ((∀ i, ¬ matchesAt env.dlStdout i) →
      download_youtube_media st base audioOnly env =
        .ok (⟨dirs1, st.files⟩, .destNotFound)) := by
  constructor
  · intro p hp
    have hs : searchDest env.dlStdout = some p := (searchDest_eq_some_iff _ _).mpr hp
    unfold download_youtube_media
    rw [hcd]
    simp [hdl, hs]
  · intro hnone
    have hs : searchDest env.dlStdout = none := (searchDest_eq_none_iff _).mpr hnone
    unfold download_youtube_media
    rw [hcd]
    simp [hdl, hs]

/-- Claim C1, witness: a concrete captured output holding one destination
line resolves to that line's path, which is handed to the stripper. -/
theorem C1_fetch_destination_witness :
    download_youtube_media ⟨[], []⟩ ("/o".data) false
        ⟨false, 0, "yt-dlp says\n[download] Destination: /o/Video/clip.mp4\nbye\n".data,
         ⟨0, some 5, false⟩⟩ =
      .ok (⟨["/o/Video".data, "/o".data],
            (strip_metadata [] ("/o/Video/clip.mp4".data) ⟨0, some 5, false⟩).1⟩,
           .completed ("/o/Video/clip.mp4".data)) :=
  (C1_fetch_destination ⟨[], []⟩ ("/o".data) false _ _ (by rfl) rfl).1
    ("/o/Video/clip.mp4".data)
    ⟨12, ⟨"/o/Video/clip.mp4\nbye\n".data, by decide, by decide⟩,
     fun j hj => not_matchesAt_of_matchHere_false _ j
       ((by decide : ∀ k, k < 12 →
           matchHere (("yt-dlp says\n[download] Destination: /o/Video/clip.mp4\nbye\n".data).drop k)
             = false) j hj),
     by decide⟩

theorem download_ok_of_mkdir_ok (st : BatchState) (base : List Char)
    (audioOnly : Bool) (env : UrlEnv) (he : env.mkdirErr = false) :
    ∃ st1, download_youtube_media st base audioOnly env = .ok (st1, urlOutcomeOf env) := by
  have hcd : ∃ ds1, create_output_directory st.dirs (outDirOf base audioOnly)
      env.mkdirErr = .ok ds1 := by
    unfold create_output_directory
    rw [he]
    by_cases hmem : outDirOf base audioOnly ∈ st.dirs
    · exact ⟨st.dirs, by simp [hmem]⟩
    · exact ⟨mkdirs st.dirs (outDirOf base audioOnly), by simp [hmem]⟩
  obtain ⟨ds1, hcd⟩ := hcd
  unfold download_youtube_media urlOutcomeOf
  rw [hcd]
  by_cases hdl : env.dlExit = 0
  · cases hse : searchDest env.dlStdout with
    | some p =>
      refine ⟨⟨ds1, (strip_metadata st.files p env.ffmpeg).1⟩, ?_⟩
      simp [hdl, hse]
    | none =>
      refine ⟨⟨ds1, st.files⟩, ?_⟩
      simp [hdl, hse]
  · refine ⟨⟨ds1, st.files⟩, ?_⟩
    simp [hdl]

/-- Claim C2: per-URL failure isolation in the batch loop.  As long as no
directory-creation error occurs (the one per-URL condition that does raise
`SystemExit`), every URL in the list receives its own outcome, determined
by its own downloader/ffmpeg oracles alone — a fetch failure (downloader
non-zero exit, caught `CalledProcessError`) or a strip failure for URL i
never stops URLs after i from being processed — and the run's exit status
is 0 regardless of how many individual URLs failed. -/
theorem C2_batch_failure_isolation (base : List Char) (audioOnly : Bool)
    (envs : List UrlEnv) :
    ∀ st : BatchState, (∀ e ∈ envs, e.mkdirErr = false) →
      (runBatch st base audioOnly envs).2.1 = envs.map urlOutcomeOf ∧
      (runBatch st base audioOnly envs).2.2 = 0 := by
  induction envs with
  | nil => exact fun st _ => ⟨rfl, rfl⟩
  | cons e es ih =>
    intro st h
    obtain ⟨st1, hdl⟩ :=
      download_ok_of_mkdir_ok st base audioOnly e (h e (List.mem_cons_self e es))
    have hres := ih st1 (fun x hx => h x (List.mem_cons_of_mem e hx))
    unfold runBatch
    rw [hdl]
    refine ⟨?_, ?_⟩ <;> simp [hres.1, hres.2]

/-- Claim C2, witness: three URLs where only the second fetch fails (the
downloader exits 1); URLs 1 and 3 complete normally and the batch exits
with status 0. -/
theorem C2_batch_failure_isolation_witness :
    (runBatch ⟨[], []⟩ ("/o".data) false
        [⟨false, 0, "[download] Destination: /o/Video/a.mp4\n".data, ⟨0, some 1, false⟩⟩,
         ⟨false, 1, [], ⟨0, none, false⟩⟩,
         ⟨false, 0, "[download] Destination: /o/Video/b.mp4\n".data, ⟨0, some 2, false⟩⟩]).2.1 =
      [UrlOutcome.completed ("/o/Video/a.mp4".data), UrlOutcome.fetchFailed,
       UrlOutcome.completed ("/o/Video/b.mp4".data)] ∧
    (runBatch ⟨[], []⟩ ("/o".data) false
        [⟨false, 0, "[download] Destination: /o/Video/a.mp4\n".data, ⟨0, some 1, false⟩⟩,
         ⟨false, 1, [], ⟨0, none, false⟩⟩,
         ⟨false, 0, "[download] Destination: /o/Video/b.mp4\n".data, ⟨0, some 2, false⟩⟩]).2.2 = 0 := by
  have h := C2_batch_failure_isolation ("/o".data) false
    [⟨false, 0, "[download] Destination: /o/Video/a.mp4\n".data, ⟨0, some 1, false⟩⟩,
     ⟨false, 1, [], ⟨0, none, false⟩⟩,
     ⟨false, 0, "[download] Destination: /o/Video/b.mp4\n".data, ⟨0, some 2, false⟩⟩]
    ⟨[], []⟩ (by decide)
  exact ⟨h.1.trans (by decide), h.2⟩

theorem getFile_removeFile_ne (fs : FileFS) (p q : List Char) (h : q ≠ p) :
    getFile (removeFile fs p) q = getFile fs q := by
  induction fs with
  | nil => rfl
  | cons e fs ih =>
    by_cases he : e.1 = p
    · rw [removeFile, if_pos he, ih, getFile,
        if_neg (show ¬e.1 = q by rw [he]; exact Ne.symm h)]
    · rw [removeFile, if_neg he, getFile, getFile]
      by_cases hq : e.1 = q
      · rw [if_pos hq, if_pos hq]
      · rw [if_neg hq, if_neg hq]
        exact ih

theorem getFile_setFile_ne (fs : FileFS) (p : List Char) (v : Nat)
    (q : List Char) (h : q ≠ p) :
    getFile (setFile fs p v) q = getFile fs q := by
  unfold setFile
  rw [getFile, if_neg (show ¬(p, v).1 = q from Ne.symm h)]
  exact getFile_removeFile_ne fs p q h

theorem strippedPathOf_ne (p : List Char) : strippedPathOf p ≠ p := by
  intro h
  have hl := congrArg List.length h
  rw [strippedPathOf, List.length_append, List.length_append] at hl
  have h9 : ("_stripped".data).length = 9 := by decide
  omega

theorem getFile_applyProduced_ne (fs : FileFS) (sp : List Char)
    (pr : Option Nat) (q : List Char) (h : q ≠ sp) :
    getFile (applyProduced fs sp pr) q = getFile fs q := by
  cases pr with
  | none => rfl
  | some v => exact getFile_setFile_ne fs sp v q h

/-- Claim C3: when ffmpeg exits non-zero inside `strip_metadata` (and the
ffmpeg executable itself was found), only a non-fatal warning is logged,
and: if the temporary stripped file exists after the ffmpeg run, the
original file is still replaced with it — producing exactly the same file
store as the success (exit 0) branch would with the same ffmpeg output —
while if the temporary file does not exist, no replacement happens and the
original file is left in place. -/
theorem C3_strip_nonzero_exit (fs : FileFS) (p : List Char) (run : FfmpegRun)
    (hbin : run.binMissing = false) (hrc : run.returncode ≠ 0) :
    (∀ v, getFile (applyProduced fs (strippedPathOf p) run.produced)
        (strippedPathOf p) = some v →
      strip_metadata fs p run =
        (setFile (removeFile (applyProduced fs (strippedPathOf p) run.produced)
            (strippedPathOf p)) p v,
         StripOutcome.warnedReplaced) ∧
      (strip_metadata fs p run).1 =
        (strip_metadata fs p ⟨0, run.produced, false⟩).1) ∧
    (getFile (applyProduced fs (strippedPathOf p) run.produced)
        (strippedPathOf p) = none →
      strip_metadata fs p run =
        (applyProduced fs (strippedPathOf p) run.produced, StripOutcome.warnedKept) ∧
      getFile (strip_metadata fs p run).1 p = getFile fs p) := by
  constructor
  · intro v hv
    constructor
    · unfold strip_metadata
      rw [hbin]
      simp only [Bool.false_eq_true, if_false, if_neg hrc]
      rw [hv]
    · unfold strip_metadata
      rw [hbin]
      simp only [Bool.false_eq_true, if_false, if_neg hrc]
      rw [hv]
      simp
  · intro hn
    constructor
    · unfold strip_metadata
      rw [hbin]
      simp only [Bool.false_eq_true, if_false, if_neg hrc]
      rw [hn]
    · unfold strip_metadata
      rw [hbin]
      simp only [Bool.false_eq_true, if_false, if_neg hrc]
      rw [hn]
      exact getFile_applyProduced_ne fs _ run.produced p
        (fun he => strippedPathOf_ne p he.symm)

/-- Claim C3, witness: ffmpeg exits 1 but wrote the temporary file, which
then replaces the original exactly as on success. -/
theorem C3_strip_nonzero_exit_witness :
    strip_metadata [("/v/a.mp4".data, 1)] ("/v/a.mp4".data) ⟨1, some 7, false⟩ =
      (setFile (removeFile (applyProduced [("/v/a.mp4".data, 1)]
          (strippedPathOf ("/v/a.mp4".data)) (some 7))
          (strippedPathOf ("/v/a.mp4".data))) ("/v/a.mp4".data) 7,
       StripOutcome.warnedReplaced) ∧
    (strip_metadata [("/v/a.mp4".data, 1)] ("/v/a.mp4".data) ⟨1, some 7, false⟩).1 =
      (strip_metadata [("/v/a.mp4".data, 1)] ("/v/a.mp4".data) ⟨0, some 7, false⟩).1 :=
  (C3_strip_nonzero_exit [("/v/a.mp4".data, 1)] ("/v/a.mp4".data)
      ⟨1, some 7, false⟩ rfl (by decide)).1 7 (by decide)

theorem basenameL_append (p q : List Char) (h : '/' ∉ q) :
    basenameL (p ++ q) = basenameL p ++ q := by
  unfold basenameL
  rw [List.reverse_append]
  have hrw : (q.reverse ++ p.reverse).takeWhile (fun c => (c ≠ '/' : Bool)) =
      q.reverse ++ p.reverse.takeWhile (fun c => (c ≠ '/' : Bool)) := by
    refine List.takeWhile_append_of_pos ?_
    intro c hc
    rw [List.mem_reverse] at hc
    simp only [decide_eq_true_eq]
    exact fun hcs => h (hcs ▸ hc)
  rw [hrw, List.reverse_append, List.reverse_reverse]

theorem basenameL_no_slash (p : List Char) : '/' ∉ basenameL p := by
  intro h
  unfold basenameL at h
  rw [List.mem_reverse] at h
  have := List.mem_takeWhile_imp h
  simp at this

theorem basenameL_length_le (p : List Char) : (basenameL p).length ≤ p.length := by
  have h : List.Sublist (p.reverse.takeWhile (fun c => (c ≠ '/' : Bool))) p.reverse :=
    List.takeWhile_sublist _
  have h2 := h.length_le
  rw [List.length_reverse] at h2
  unfold basenameL
  rw [List.length_reverse]
  exact h2

theorem dirPartL_append (p q : List Char) (h : '/' ∉ q) :
    dirPartL (p ++ q) = dirPartL p := by
  unfold dirPartL
  rw [basenameL_append p q h, List.length_append, List.length_append]
  have hb := basenameL_length_le p
  have he : p.length + q.length - ((basenameL p).length + q.length)
      = p.length - (basenameL p).length := by omega
  rw [he]
  exact List.take_append_of_le_length (by omega)

theorem extOfName_shape (name : List Char) :
    extOfName name = [] ∨
      ∃ r, extOfName name = '.' :: r ∧ '.' ∉ r ∧ ∀ c ∈ r, c ∈ name := by
  simp only [extOfName]
  by_cases h1 : (name.reverse.takeWhile (fun c => (c ≠ '.' : Bool))).length = name.length
  · left; rw [if_pos h1]
  · rw [if_neg h1]
    by_cases h2 : (name.take (name.length -
        (name.reverse.takeWhile (fun c => (c ≠ '.' : Bool))).length - 1)).any
        (fun c => (c ≠ '.' : Bool)) = true
    · right
      refine ⟨(name.reverse.takeWhile (fun c => (c ≠ '.' : Bool))).reverse,
        by rw [if_pos h2], ?_, ?_⟩
      · intro hdot
        rw [List.mem_reverse] at hdot
        have := List.mem_takeWhile_imp hdot
        simp at this
      · intro c hc
        rw [List.mem_reverse] at hc
        have hsub : List.Sublist (name.reverse.takeWhile (fun c => (c ≠ '.' : Bool)))
            name.reverse := List.takeWhile_sublist _
        have := hsub.subset hc
        rwa [List.mem_reverse] at this
    · left; rw [if_neg h2]

theorem extOfName_append_no_dot (name s : List Char) (hext : extOfName name = [])
    (hs : '.' ∉ s) : extOfName (name ++ s) = [] := by
  have hra : (name.reverse.takeWhile (fun c => (c ≠ '.' : Bool))).length ≤ name.length := by
    have h : List.Sublist (name.reverse.takeWhile (fun c => (c ≠ '.' : Bool)))
        name.reverse := List.takeWhile_sublist _
    have h2 := h.length_le
    rwa [List.length_reverse] at h2
  simp only [extOfName] at hext ⊢
  rw [List.reverse_append]
  have hrw : (s.reverse ++ name.reverse).takeWhile (fun c => (c ≠ '.' : Bool)) =
      s.reverse ++ name.reverse.takeWhile (fun c => (c ≠ '.' : Bool)) := by
    refine List.takeWhile_append_of_pos ?_
    intro c hc
    rw [List.mem_reverse] at hc
    simp only [decide_eq_true_eq]
    exact fun hcs => hs (hcs ▸ hc)
  rw [hrw, List.length_append, List.length_append, List.length_reverse]
  by_cases h1 : (name.reverse.takeWhile (fun c => (c ≠ '.' : Bool))).length = name.length
  · rw [if_pos (by omega)]
  · rw [if_neg (by omega)]
    rw [if_neg h1] at hext
    have hidx : name.length + s.length -
        (s.length + (name.reverse.takeWhile (fun c => (c ≠ '.' : Bool))).length) - 1 =
        name.length - (name.reverse.takeWhile (fun c => (c ≠ '.' : Bool))).length - 1 := by
      omega
    rw [hidx, List.take_append_of_le_length (by omega)]
    by_cases h2 : (name.take (name.length -
        (name.reverse.takeWhile (fun c => (c ≠ '.' : Bool))).length - 1)).any
        (fun c => (c ≠ '.' : Bool)) = true
    · rw [if_pos h2] at hext
      exact absurd hext (List.cons_ne_nil _ _)
    · rw [if_neg h2]

theorem extOfName_append_stripped_ext (name r : List Char) (hr : '.' ∉ r) :
    extOfName (name ++ ("_stripped".data ++ '.' :: r)) = '.' :: r := by
  have hS9 : ("_stripped".data).length = 9 := by decide
  have htot : (name ++ ("_stripped".data ++ '.' :: r)).length =
      name.length + (9 + (r.length + 1)) := by
    have h2 : ("_stripped".data ++ '.' :: r).length = 9 + (r.length + 1) := by
      rw [List.length_append, hS9, List.length_cons]
    rw [List.length_append, h2]
  simp only [extOfName]
  rw [List.reverse_append, List.reverse_append, List.reverse_cons, List.append_assoc,
    List.append_assoc, List.singleton_append]
  have hrw : (r.reverse ++ '.' :: (("_stripped".data).reverse ++ name.reverse)).takeWhile
        (fun c => (c ≠ '.' : Bool)) = r.reverse := by
    have h1 : (r.reverse ++ '.' :: (("_stripped".data).reverse ++ name.reverse)).takeWhile
        (fun c => (c ≠ '.' : Bool)) =
        r.reverse ++ ('.' :: (("_stripped".data).reverse ++ name.reverse)).takeWhile
          (fun c => (c ≠ '.' : Bool)) := by
      refine List.takeWhile_append_of_pos ?_
      intro c hc
      rw [List.mem_reverse] at hc
      simp only [decide_eq_true_eq]
      exact fun hcs => hr (hcs ▸ hc)
    rw [h1, List.takeWhile_cons_of_neg (by decide), List.append_nil]
  rw [hrw]
  rw [if_neg (by rw [List.length_reverse, htot]; omega)]
  have hidx : (name ++ ("_stripped".data ++ '.' :: r)).length - (r.reverse).length - 1 =
      name.length + 9 := by
    rw [List.length_reverse, htot]; omega
  rw [hidx, ← List.append_assoc]
  rw [List.take_left' (by rw [List.length_append, hS9])]
  rw [if_pos (List.any_eq_true.mpr
    ⟨'_', List.mem_append.mpr (Or.inr (by decide)), by decide⟩)]
  rw [List.reverse_reverse]

theorem splitextExt_shape (p : List Char) :
    splitextExt p = [] ∨
      ∃ r, splitextExt p = '.' :: r ∧ '.' ∉ r ∧ ∀ c ∈ r, c ∈ basenameL p :=
  extOfName_shape (basenameL p)

theorem splitextExt_no_slash (p : List Char) (c : Char) (hc : c ∈ splitextExt p) :
    c ≠ '/' := by
  rcases splitextExt_shape p with h | ⟨r, hr, -, hmem⟩
  · rw [h] at hc; cases hc
  · rw [hr] at hc
    rcases List.mem_cons.mp hc with h1 | h1
    · rw [h1]; decide
    · intro hcs
      exact basenameL_no_slash p (hcs ▸ hmem c h1)

theorem splitextExt_strippedPathOf (p : List Char) :
    splitextExt (strippedPathOf p) = splitextExt p := by
  rw [strippedPathOf]
  rcases splitextExt_shape p with h | ⟨r, hr, hnr, hmem⟩
  · rw [h, List.append_nil]
    unfold splitextExt
    rw [basenameL_append p _ (by decide)]
    exact extOfName_append_no_dot _ _ h (by decide)
  · rw [hr]
    have hslash : '/' ∉ ("_stripped".data ++ '.' :: r) := by
      intro hmem2
      rcases List.mem_append.mp hmem2 with h1 | h1
      · exact absurd h1 (by decide)
      · rcases List.mem_cons.mp h1 with h2 | h2
        · exact absurd h2 (by decide)
        · exact basenameL_no_slash p (hmem _ h2)
    unfold splitextExt
    rw [List.append_assoc, basenameL_append p _ hslash]
    exact extOfName_append_stripped_ext _ r hnr

/-- Claim C9: for every input file path, the temporary path computed by
`strip_metadata` equals the input path followed by "_stripped" followed by
the input's extension; it lives in the same directory as the input
(identical directory part), carries the same extension (`os.path.splitext`
of both agree), contains the distinguishing "_stripped" marker, and is
distinct from the input path. -/
theorem C9_stripped_path_properties (p : List Char) :
    strippedPathOf p = p ++ "_stripped".data ++ splitextExt p ∧
    dirPartL (strippedPathOf p) = dirPartL p ∧
    splitextExt (strippedPathOf p) = splitextExt p ∧
    strippedPathOf p ≠ p ∧
    ∃ a b, strippedPathOf p = a ++ "_stripped".data ++ b := by
  refine ⟨rfl, ?_, splitextExt_strippedPathOf p, strippedPathOf_ne p,
    ⟨p, splitextExt p, rfl⟩⟩
  rw [strippedPathOf, List.append_assoc]
  refine dirPartL_append p _ ?_
  intro hmem2
  rcases List.mem_append.mp hmem2 with h1 | h1
  · exact absurd h1 (by decide)
  · exact (splitextExt_no_slash p '/' h1) rfl

theorem splitLinesKeep_ne_nil (c : List Char) : ∀ l ∈ splitLinesKeep c, l ≠ [] := by
  induction c with
  | nil => intro l hl; cases hl
  | cons a rest ih =>
    intro l hl
    rw [splitLinesKeep] at hl
    by_cases ha : a = '\n'
    · rw [if_pos ha] at hl
      rcases List.mem_cons.mp hl with h | h
      · rw [h]; exact List.cons_ne_nil _ _
      · exact ih l h
    · rw [if_neg ha] at hl
      cases hk : splitLinesKeep rest with
      | nil =>
        rw [hk] at hl
        rcases List.mem_cons.mp hl with h | h
        · rw [h]; exact List.cons_ne_nil _ _
        · cases h
      | cons x xs =>
        rw [hk] at hl
        rcases List.mem_cons.mp hl with h | h
        · rw [h]; exact List.cons_ne_nil _ _
        · exact ih l (by rw [hk]; exact List.mem_cons_of_mem x h)

theorem splitLinesKeep_eq_nil_iff (c : List Char) : splitLinesKeep c = [] ↔ c = [] := by
  cases c with
  | nil => simp [splitLinesKeep]
  | cons a rest =>
    rw [splitLinesKeep]
    constructor
    · intro h
      by_cases ha : a = '\n'
      · rw [if_pos ha] at h; cases h
      · rw [if_neg ha] at h
        cases hk : splitLinesKeep rest with
        | nil => rw [hk] at h; cases h
        | cons x xs => rw [hk] at h; cases h
    · intro h; cases h

theorem stripNL_cons (a : Char) (x : List Char) (hx : x ≠ []) :
    stripNL (a :: x) = a :: stripNL x := by
  cases x with
  | nil => cases hx rfl
  | cons b m =>
    unfold stripNL
    rw [List.getLast?_cons_cons]
    by_cases hb : (b :: m).getLast? = some '\n'
    · rw [if_pos hb, if_pos hb]
      rfl
    · rw [if_neg hb, if_neg hb]

theorem endPad_cons (a : Char) (rest : List Char) (h : rest ≠ []) :
    endPad (a :: rest) = endPad rest := by
  unfold endPad
  have h1 : (a :: rest).getLast? = rest.getLast? := by
    cases rest with
    | nil => cases h rfl
    | cons b m => exact List.getLast?_cons_cons
  by_cases hl : rest.getLast? = some '\n'
  · rw [if_pos (Or.inr (h1.symm ▸ hl)), if_pos (Or.inr hl)]
  · rw [if_neg (by simp [h1, hl]), if_neg (by simp [h, hl])]

theorem endPad_newline_cons (rest : List Char) : endPad ('\n' :: rest) = endPad rest := by
  cases rest with
  | nil => decide
  | cons b m => exact endPad_cons '\n' (b :: m) (List.cons_ne_nil _ _)

theorem linesOf_eq_splitKeep_pad (c : List Char) :
    linesOf c = (splitLinesKeep c).map stripNL ++ endPad c := by
  induction c with
  | nil => simp [linesOf, splitLinesKeep, endPad]
  | cons a rest ih =>
    by_cases ha : a = '\n'
    · subst ha
      rw [linesOf, if_pos rfl, splitLinesKeep, if_pos rfl, List.map_cons]
      have hstrip : stripNL ['\n'] = [] := by decide
      rw [hstrip, List.cons_append, endPad_newline_cons, ih]
    · rw [linesOf, if_neg ha, splitLinesKeep, if_neg ha]
      cases hk : splitLinesKeep rest with
      | nil =>
        have hrest : rest = [] := (splitLinesKeep_eq_nil_iff rest).mp hk
        subst hrest
        simp [linesOf, stripNL, endPad, ha]
      | cons x xs =>
        have hx : x ≠ [] :=
          splitLinesKeep_ne_nil rest x (by rw [hk]; exact List.mem_cons_self x xs)
        have hrest : rest ≠ [] := by
          intro h0
          subst h0
          rw [splitLinesKeep] at hk
          cases hk
        have ihx : linesOf rest = stripNL x :: (xs.map stripNL ++ endPad rest) := by
          rw [ih, hk, List.map_cons, List.cons_append]
        rw [ihx, List.map_cons, List.cons_append, endPad_cons a rest hrest]
        rw [stripNL_cons a x hx]
        rfl

theorem stripWS_append_ws (x : List Char) (c : Char) (hc : pyIsSpace c = true) :
    stripWS (x ++ [c]) = stripWS x := by
  unfold stripWS
  rw [List.dropWhile_append]
  by_cases hx : (x.dropWhile pyIsSpace).isEmpty = true
  · rw [if_pos hx]
    have h1 : ([c].dropWhile pyIsSpace) = [] := by
      simp [List.dropWhile_cons, hc]
    rw [h1]
    rw [List.isEmpty_iff] at hx
    rw [hx]
  · rw [if_neg hx]
    rw [List.reverse_append, List.reverse_singleton, List.singleton_append,
      List.dropWhile_cons, if_pos hc]

theorem stripWS_stripNL (l : List Char) : stripWS (stripNL l) = stripWS l := by
  unfold stripNL
  by_cases h : l.getLast? = some '\n'
  · rw [if_pos h]
    have hne : l ≠ [] := by
      intro h0
      subst h0
      cases h
    have hlast : l.getLast hne = '\n' := by
      have h2 := List.getLast?_eq_getLast l hne
      rw [h2] at h
      exact Option.some.inj h
    conv_rhs => rw [← List.dropLast_concat_getLast hne]
    rw [stripWS_append_ws _ _ (by rw [hlast]; decide)]
  · rw [if_neg h]

theorem nonblank_keep_eq (content : List Char) :
    ((splitLinesKeep content).map stripWS).filter (fun l => !l.isEmpty) =
      nonblankLines content := by
  unfold nonblankLines
  rw [linesOf_eq_splitKeep_pad, List.map_append, List.filter_append]
  have hpad : ((endPad content).map stripWS).filter (fun l => !l.isEmpty) = [] := by
    unfold endPad
    by_cases hcond : content = [] ∨ content.getLast? = some '\n'
    · rw [if_pos hcond]
      simp [stripWS]
    · rw [if_neg hcond]
      rfl
  rw [hpad, List.append_nil, List.map_map]
  exact congrArg _ (List.map_congr_left (fun x _ => (stripWS_stripNL x).symm))

/-- Claim C6: for an input naming a list file (no "http" prefix, ".txt"
suffix after lowercasing) whose file exists, `process_input` returns
exactly the non-blank lines of the file in order, each with surrounding
whitespace removed, when at least one such line exists; with zero
non-blank lines it prints an error and exits with code 1 (the EmptyList
fatal error) instead of returning an empty sequence. -/
theorem C6_list_file (input : List Char) (fsRead : List Char → Option (List Char))
    (content : List Char)
    (h1 : ("http".data).isPrefixOf input = false)
    (h2 : (".txt".data).isSuffixOf (toLowerL input) = true)
    (h3 : fsRead input = some content) :
    (nonblankLines content ≠ [] →
      process_input input fsRead = .ok (nonblankLines content)) ∧
    (nonblankLines content = [] → process_input input fsRead = .exit1) := by
  have hmain : process_input input fsRead =
      (if (nonblankLines content).isEmpty then .exit1 else .ok (nonblankLines content)) := by
    unfold process_input
    rw [h1, h2]
    simp only [Bool.false_eq_true, if_false, if_pos rfl, h3]
    rw [nonblank_keep_eq content]
    simp only [if_pos trivial]
  constructor
  · intro hne
    rw [hmain, if_neg (by simp [List.isEmpty_iff, hne])]
  · intro he
    rw [hmain, if_pos (by simp [List.isEmpty_iff, he])]

/-- Claim C6, witness: a concrete list file with blank and padded lines,
and a concrete all-blank list file. -/
theorem C6_list_file_witness :
    process_input ("urls.txt".data)
        (fun _ => some ("  https://a \n\n https://b\n".data)) =
      InputResult.ok ["https://a".data, "https://b".data] ∧
    process_input ("empty.txt".data) (fun _ => some ("  \n\n".data)) =
      InputResult.exit1 := by
  constructor
  · have h := (C6_list_file ("urls.txt".data)
      (fun _ => some ("  https://a \n\n https://b\n".data))
      ("  https://a \n\n https://b\n".data) (by decide) (by decide) rfl).1
      (by decide)
    rw [h]
    decide
  · exact (C6_list_file ("empty.txt".data) (fun _ => some ("  \n\n".data))
      ("  \n\n".data) (by decide) (by decide) rfl).2 (by decide)
